import Mathlib

/-!
Shallow embedding of the string-matching core of `carmac_tools`
(`src/carmac_tools/file_tools.py`): text normalization, filename validity
filtering, extension stripping, similarity scoring with pluggable backends,
and the best-match selection loop, together with theorems settling the
specification claims about them.

Modelling conventions:
* a Python `str` is modelled as `List Char` (`PyStr`);
* Python `float` scores and thresholds are modelled as exact rationals `ℚ`;
* Python `raise ValueError` is modelled with `Except PyError`;
* the case folding `str.lower()` is modelled on the basic-latin range via
  `Char.toLower`;
* the regex parameter `filter_pattern` of `normalize_string` (a negated
  character class such as `[^a-z0-9]+`, describing the characters to remove)
  is modelled by the complementary retention predicate `Char → Bool` giving
  the characters that are kept, as in the specification's data model.
-/

namespace CarmacTools

attribute [local semireducible] Rat.mul Rat.inv Rat.add Rat.sub

/-- Python strings are modelled as lists of characters. -/
abbrev PyStr := List Char

/-! ## Normalizer (`normalize_string`) -/

/-- Embedding of `normalize_string(s, filter_pattern)`:
`re.sub(pattern=filter_pattern, repl='', string=s.lower())`.
Lowercases `s` and keeps exactly the characters satisfying `filter_keep`
(the retention predicate corresponding to the negated character class
`filter_pattern`); removing every maximal run of non-kept characters is the
same as removing every non-kept character. -/
def normalize_string (s : PyStr) (filter_keep : Char → Bool) : PyStr :=
  (s.map Char.toLower).filter filter_keep

/-- The default retention predicate of the default pattern `[^a-z0-9]+`:
keep exactly lowercase basic-latin letters and digits. -/
def defaultKeep (c : Char) : Bool :=
  c.isLower || c.isDigit

/-! ## Filename validity filter (`is_valid_filename`) -/

/-- The characters of the regex class in
`re.search(pattern=r'[\\/*?:"<>|]', string=filename)`, in source order.
`Char.ofNat 34` is the double-quote character. -/
def windowsForbidden : List Char :=
  ['\\', '/', '*', '?', ':', Char.ofNat 34, '<', '>', '|']

/-- Embedding of `is_valid_filename(filename, os_type)`: returns `False` when
`os_type == 'windows'` and the name contains a character of
`windowsForbidden`, `False` when `os_type == 'unix'` and the name contains
`'/'` or the NUL character, and `True` otherwise. -/
def is_valid_filename (filename : PyStr) (os_type : String) : Bool :=
  if os_type = "windows" && filename.any (fun c => windowsForbidden.contains c) then
    false
  else if os_type = "unix" && (filename.contains '/' || filename.contains (Char.ofNat 0)) then
    false
  else
    true

/-! ## Extension stripping (`remove_extension`)

`remove_extension(filename)` is `Path(filename).stem` from `pathlib`. We embed
the POSIX flavour of `PurePath`: a path is split on `'/'`, empty components
and `'.'` components are dropped (`'..'` is kept), `name` is the last
remaining component, and `stem` drops the part of `name` from its last dot on
when that dot is at an index `i` with `0 < i < len(name) - 1`. -/

/-- Split a character list on a separator character, keeping empty pieces
(the behaviour of Python's `str.split(sep)`). -/
def splitOnChar (sep : Char) : PyStr → List PyStr
  | [] => [[]]
  | x :: xs =>
    match splitOnChar sep xs with
    | [] => [[]]
    | piece :: rest =>
      if x = sep then [] :: piece :: rest else (x :: piece) :: rest

/-- The retained path components of a string under `pathlib` parsing:
split on `'/'`, drop empty components and single-dot components. -/
def pathComponents (s : PyStr) : List PyStr :=
  (splitOnChar '/' s).filter (fun comp => decide (comp ≠ [] ∧ comp ≠ ['.']))

/-- `PurePath.name`: the final retained path component (empty for a path with
no retained component, such as `''`, `'/'` or `'.'`). -/
def pathName (s : PyStr) : PyStr :=
  (pathComponents s).getLast?.getD []

/-- Index of the last occurrence of `c` (Python's `str.rfind`, with `none` in
place of `-1`). -/
def rfindChar (c : Char) : PyStr → Option Nat
  | [] => none
  | x :: xs =>
    match rfindChar c xs with
    | some i => some (i + 1)
    | none => if x = c then some 0 else none

/-- `PurePath.stem` applied to an already-extracted `name`: `i = name.rfind('.')`;
if `0 < i < len(name) - 1` the result is `name[:i]`, otherwise `name`. -/
def stemOfName (name : PyStr) : PyStr :=
  match rfindChar '.' name with
  | some i => if 0 < i ∧ i < name.length - 1 then name.take i else name
  | none => name

/-- Embedding of `remove_extension(filename)`, i.e. `Path(filename).stem`. -/
def remove_extension (filename : PyStr) : PyStr :=
  stemOfName (pathName filename)

/-- The extension-stripping rule exactly as claim C5 words it: remove
everything after and including the last `'.'` of the string, unless the
string has no `'.'` or its only `'.'` is the leading character. -/
def claimedRemoveExtension (s : PyStr) : PyStr :=
  match rfindChar '.' s with
  | none => s
  | some i => if i = 0 then s else s.take i

/-- The amended extension-stripping rule: as `claimedRemoveExtension`, except
that a dot in the final position is also left in place. -/
def amendedRemoveExtension (s : PyStr) : PyStr :=
  match rfindChar '.' s with
  | none => s
  | some i => if i = 0 ∨ i = s.length - 1 then s else s.take i

/-! ## Scoring backends

`get_score` dispatches between three similarity backends:

* `rapidfuzz.fuzz.ratio` and `rapidfuzz.fuzz.partial_ratio` — modelled from
  the library's documented semantics: `ratio` is the normalized indel
  similarity `100 * 2 * lcs(a, b) / (len(a) + len(b))` (with `100` for two
  empty strings), and `partial_ratio` is the best `ratio` of the shorter
  string against the contiguous substrings of the longer string having the
  shorter string's length;
* `thefuzz.fuzz.ratio` / `partial_ratio` — modelled from thefuzz, which
  wraps the rapidfuzz scores and rounds them to the nearest integer;
* `difflib.SequenceMatcher` with `isjunk=None`, `autojunk=False` — embedded
  from the CPython implementation: `ratio` is `2 * M / T` where `M` sums the
  sizes of the recursively chosen longest matching blocks and
  `T = len(a) + len(b)`, and `quick_ratio` is `2 * M' / T` where `M'` is the
  size of the character multiset intersection.

Recursions that CPython performs on shrinking ranges are written with an
explicit fuel argument equal to `len(a) + len(b)`, which bounds the recursion
depth because every recursive call strictly decreases the total length. -/

/-- Length of a longest common subsequence, with fuel (`fuel = len a + len b`
suffices: each recursive call decreases the total length and the fuel by at
least one, and empty lists need no fuel). -/
def lcsF : Nat → PyStr → PyStr → Nat
  | _, [], _ => 0
  | _, _, [] => 0
  | 0, _, _ => 0
  | fuel + 1, a :: as, b :: bs =>
    if a = b then lcsF fuel as bs + 1
    else max (lcsF fuel (a :: as) bs) (lcsF fuel as (b :: bs))

/-- Length of a longest common subsequence of two character lists. -/
def lcsLen (a b : PyStr) : Nat :=
  lcsF (a.length + b.length) a b

/-- Modelled from rapidfuzz: `fuzz.ratio(s1, s2)`, the normalized indel
similarity as a percentage. The indel distance is
`len a + len b - 2 * lcs(a, b)`, so the similarity is
`100 * 2 * lcs(a, b) / (len a + len b)`; two empty strings score `100`. -/
def ratio_rf (a b : PyStr) : ℚ :=
  if a.length + b.length = 0 then 100
  else 100 * (2 * (lcsLen a b : ℚ)) / ((a.length : ℚ) + (b.length : ℚ))

/-- All contiguous substrings of `l` of length `n` (empty when `n > len l`). -/
def windowsOf (n : Nat) (l : PyStr) : List PyStr :=
  (List.range (l.length - n + 1)).map (fun i => (l.drop i).take n)

/-- Best score of the shorter of `a` and `b` against the contiguous
substrings of the longer one having the shorter one's length, under the
similarity `sim`; this is the substring-alignment scheme the specification
describes for `Partial` mode. -/
def bestWindowScore (sim : PyStr → PyStr → ℚ) (a b : PyStr) : ℚ :=
  let p := if a.length ≤ b.length then (a, b) else (b, a)
  (((windowsOf p.1.length p.2).map (fun w => sim p.1 w)).foldl max 0)

/-- Modelled from rapidfuzz: `fuzz.partial_ratio(s1, s2)`, the best
`fuzz.ratio` alignment of the shorter string inside the longer one. -/
def partial_ratio_rf (a b : PyStr) : ℚ :=
  bestWindowScore ratio_rf a b

/-- Modelled from thefuzz: `fuzz.ratio`, which wraps the rapidfuzz score and
rounds it to the nearest integer. -/
def ratio_tf (a b : PyStr) : ℚ :=
  ((round (ratio_rf a b) : ℤ) : ℚ)

/-- Modelled from thefuzz: `fuzz.partial_ratio`, which wraps the rapidfuzz
score and rounds it to the nearest integer. -/
def partial_ratio_tf (a b : PyStr) : ℚ :=
  ((round (partial_ratio_rf a b) : ℤ) : ℚ)

/-- Length of the longest common prefix of two character lists. -/
def commonPrefixLen : PyStr → PyStr → Nat
  | a :: as, b :: bs => if a = b then commonPrefixLen as bs + 1 else 0
  | _, _ => 0

/-- Embedding of `SequenceMatcher.find_longest_match` over the whole strings
(with `isjunk=None` and `autojunk=False` there is no junk and no popular
filtering): among all `(i, j)` the longest common substring of `a` and `b`
starting at `a[i]` and `b[j]` has length `commonPrefixLen (a.drop i) (b.drop j)`,
and CPython returns the maximal-length block whose `(i, j)` is
lexicographically least, which the strict comparison in this left fold over
the lexicographically ordered candidates reproduces. -/
def findLongestMatch (a b : PyStr) : Nat × Nat × Nat :=
  (((List.range (a.length + 1)).map (fun i =>
      (List.range (b.length + 1)).map (fun j =>
        (i, j, commonPrefixLen (a.drop i) (b.drop j))))).flatten).foldl
    (fun best c => if best.2.2 < c.2.2 then c else best) (0, 0, 0)

/-- Total size of the matching blocks of `SequenceMatcher.get_matching_blocks`:
take the longest match, then recurse on the pieces to its left and to its
right, summing the block sizes (fuel as above). -/
def matchTotalF : Nat → PyStr → PyStr → Nat
  | 0, _, _ => 0
  | fuel + 1, a, b =>
    let r := findLongestMatch a b
    if r.2.2 = 0 then 0
    else
      matchTotalF fuel (a.take r.1) (b.take r.2.1) + r.2.2 +
        matchTotalF fuel (a.drop (r.1 + r.2.2)) (b.drop (r.2.1 + r.2.2))

/-- Total matched size `M` used by `SequenceMatcher.ratio`. -/
def matchTotal (a b : PyStr) : Nat :=
  matchTotalF (a.length + b.length) a b

/-- Embedding of `SequenceMatcher.ratio()` (a value in `[0, 1]`):
`2 * M / T` with `T = len a + len b`, and `1.0` when `T = 0`. -/
def ratio_sm (a b : PyStr) : ℚ :=
  if a.length + b.length = 0 then 1
  else 2 * (matchTotal a b : ℚ) / ((a.length : ℚ) + (b.length : ℚ))

/-- The matches counted by `SequenceMatcher.quick_ratio()`: CPython's
availability-dictionary loop computes exactly the size of the character
multiset intersection, `Σ_c min(count_a c, count_b c)`. -/
def quickMatches (a b : PyStr) : Nat :=
  (a.dedup.map (fun c => min (a.count c) (b.count c))).sum

/-- Embedding of `SequenceMatcher.quick_ratio()` (a value in `[0, 1]`):
`2 * quickMatches / T` with `T = len a + len b`, and `1.0` when `T = 0`. -/
def quick_ratio_sm (a b : PyStr) : ℚ :=
  if a.length + b.length = 0 then 1
  else 2 * (quickMatches a b : ℚ) / ((a.length : ℚ) + (b.length : ℚ))

/-! ## Score dispatch (`get_score`) -/

/-- The `ValueError`s `get_score` can raise, identified by which of the two
configuration checks failed. -/
inductive PyError where
  | valueErrorLibrary (library : String)
  | valueErrorMethod (match_method : String)
deriving DecidableEq

/-- `valid_libraries = ['rapidfuzz', 'thefuzz', 'difflib']`. -/
def valid_libraries : List String :=
  ["rapidfuzz", "thefuzz", "difflib"]

/-- `valid_methods = ['exact', 'partial']`. -/
def valid_methods : List String :=
  ["exact", "partial"]

/-- Embedding of `get_score(library, match_method, normalized_name,
normalized_target)`: validate `library` then `match_method` (raising
`ValueError` on the first failure), then dispatch to the selected backend;
the difflib branch multiplies the `SequenceMatcher` value by `100`. -/
def get_score (library match_method : String) (normalized_name normalized_target : PyStr) :
    Except PyError ℚ :=
  if library ∉ valid_libraries then
    .error (.valueErrorLibrary library)
  else if match_method ∉ valid_methods then
    .error (.valueErrorMethod match_method)
  else if library = "rapidfuzz" then
    if match_method = "exact" then .ok (ratio_rf normalized_name normalized_target)
    else .ok (partial_ratio_rf normalized_name normalized_target)
  else if library = "thefuzz" then
    if match_method = "exact" then .ok (ratio_tf normalized_name normalized_target)
    else .ok (partial_ratio_tf normalized_name normalized_target)
  else
    if match_method = "exact" then .ok (100 * ratio_sm normalized_name normalized_target)
    else .ok (100 * quick_ratio_sm normalized_name normalized_target)

/-! ## Matcher (`string_matching`) -/

/-- One match result dictionary, `{'name': base_name, 'matched_name': best_match}`. -/
structure MatchRecord where
  name : PyStr
  matched_name : PyStr
deriving DecidableEq

/-- One iteration of the inner `for target_name in target_list` loop of
`string_matching`, over the running state `(highest_score, best_match)`:
in filename mode an invalid filename is skipped (`continue`); otherwise the
target is normalized (after extension stripping in filename mode), scored
against the normalized base name, and the state is updated by
`if score > highest_score: highest_score = score;
if score >= similarity_threshold: best_match = target_name`. -/
def processTarget (library match_method : String) (similarity_threshold : ℚ)
    (filter_keep : Char → Bool) (filename_mode : Bool) (normalized_name : PyStr)
    (st : ℚ × Option PyStr) (target_name : PyStr) : Except PyError (ℚ × Option PyStr) :=
  if filename_mode && !(is_valid_filename target_name "windows") then
    .ok st
  else
    let normalized_target :=
      if filename_mode then normalize_string (remove_extension target_name) filter_keep
      else normalize_string target_name filter_keep
    match get_score library match_method normalized_name normalized_target with
    | .error e => .error e
    | .ok score =>
      if st.1 < score then .ok (score, if similarity_threshold ≤ score then some target_name else st.2)
      else .ok st

/-- The body of the outer `for base_name in base_list` loop up to the final
`if best_match:` test: normalize the base name and run the inner loop from
`best_match = None`, `highest_score = 0`, returning the final `best_match`. -/
def matchBase (library match_method : String) (similarity_threshold : ℚ)
    (filter_keep : Char → Bool) (filename_mode : Bool) (target_list : List PyStr)
    (base_name : PyStr) : Except PyError (Option PyStr) :=
  (target_list.foldlM
      (processTarget library match_method similarity_threshold filter_keep filename_mode
        (normalize_string base_name filter_keep))
      ((0 : ℚ), (none : Option PyStr))).map (fun st => st.2)

/-- The tail of the outer loop body: `if best_match:` appends
`{'name': base_name, 'matched_name': best_match}` to the matched results,
`else` appends the base name to the unmatched names. The Python test
`if best_match:` is truthy only for a non-`None`, non-empty string, so an
empty-string `best_match` sends the base name to the unmatched list. -/
def appendResult (st : List MatchRecord × List PyStr) (base_name : PyStr)
    (best_match : Option PyStr) : List MatchRecord × List PyStr :=
  match best_match with
  | some t =>
    if t = [] then (st.1, st.2 ++ [base_name])
    else (st.1 ++ [MatchRecord.mk base_name t], st.2)
  | none => (st.1, st.2 ++ [base_name])

/-- Embedding of `string_matching(base_list, target_list, library,
match_method, similarity_threshold, normalization_pattern, filename_mode)`:
starting from empty result lists, process each base name in order with the
inner loop (`matchBase`) and route it by the truthiness of its
`best_match` (`appendResult`). -/
def string_matching (base_list target_list : List PyStr) (library match_method : String)
    (similarity_threshold : ℚ) (filter_keep : Char → Bool) (filename_mode : Bool) :
    Except PyError (List MatchRecord × List PyStr) :=
  base_list.foldlM
    (fun st base_name =>
      (matchBase library match_method similarity_threshold filter_keep filename_mode
          target_list base_name).map (appendResult st base_name))
    ([], [])

/-! ## Characterization vocabulary

Pure functions describing what the matcher computes for a valid
configuration; the theorems below relate `string_matching` to them. -/

/-- The score `get_score` returns for a valid configuration: the pure
backend dispatch without the validation. -/
def scoreFn (library match_method : String) (a b : PyStr) : ℚ :=
  if library = "rapidfuzz" then
    if match_method = "exact" then ratio_rf a b else partial_ratio_rf a b
  else if library = "thefuzz" then
    if match_method = "exact" then ratio_tf a b else partial_ratio_tf a b
  else
    if match_method = "exact" then 100 * ratio_sm a b else 100 * quick_ratio_sm a b

/-- The normalized form of a target string: extension stripping first in
filename mode, then normalization. -/
def normalizedTarget (filter_keep : Char → Bool) (filename_mode : Bool) (t : PyStr) : PyStr :=
  if filename_mode then normalize_string (remove_extension t) filter_keep
  else normalize_string t filter_keep

/-- The score a target receives against a normalized base name. -/
def targetScore (library match_method : String) (filter_keep : Char → Bool)
    (filename_mode : Bool) (normalized_name t : PyStr) : ℚ :=
  scoreFn library match_method normalized_name (normalizedTarget filter_keep filename_mode t)

/-- The targets the inner loop actually scores: in filename mode only those
passing the windows validity filter, otherwise all of them, in order. -/
def consideredTargets (filename_mode : Bool) (target_list : List PyStr) : List PyStr :=
  if filename_mode then target_list.filter (fun t => is_valid_filename t "windows")
  else target_list

/-- The pure running-best update of the inner loop (the state is
`(highest_score, best_match)` and `f` gives each target's score). -/
def stepBest (similarity_threshold : ℚ) (f : PyStr → ℚ) (st : ℚ × Option PyStr)
    (t : PyStr) : ℚ × Option PyStr :=
  if st.1 < f t then (f t, if similarity_threshold ≤ f t then some t else st.2)
  else st

/-- The running maximum of `f` over `l` starting from the initial
`highest_score = 0`. -/
def maxScoreList (f : PyStr → ℚ) (l : List PyStr) : ℚ :=
  l.foldl (fun m t => max m (f t)) 0

/-- The first element of `l` whose score under `f` equals `M`. -/
def firstMaxTarget (f : PyStr → ℚ) (M : ℚ) : List PyStr → Option PyStr
  | [] => none
  | t :: ts => if f t = M then some t else firstMaxTarget f M ts

/-- What the inner loop's final `best_match` is: the first target attaining
the maximal score, provided that maximum is positive and clears the
threshold; `none` otherwise. -/
def bestPure (similarity_threshold : ℚ) (f : PyStr → ℚ) (l : List PyStr) : Option PyStr :=
  if 0 < maxScoreList f l ∧ similarity_threshold ≤ maxScoreList f l then
    firstMaxTarget f (maxScoreList f l) l
  else none

/-- The final `best_match` of the inner loop for base name `b`, expressed
purely (valid configurations only). -/
def baseBest (library match_method : String) (similarity_threshold : ℚ)
    (filter_keep : Char → Bool) (filename_mode : Bool) (target_list : List PyStr)
    (b : PyStr) : Option PyStr :=
  bestPure similarity_threshold
    (targetScore library match_method filter_keep filename_mode (normalize_string b filter_keep))
    (consideredTargets filename_mode target_list)

/-- Whether base name `b` ends up in the matched list: its `best_match` must
be a non-empty string (Python truthiness of `if best_match:`). -/
def baseAccepted (library match_method : String) (similarity_threshold : ℚ)
    (filter_keep : Char → Bool) (filename_mode : Bool) (target_list : List PyStr)
    (b : PyStr) : Bool :=
  match baseBest library match_method similarity_threshold filter_keep filename_mode
      target_list b with
  | some t => decide (t ≠ [])
  | none => false

/-- The configuration error `get_score` raises for an invalid configuration:
the library is checked first, then the method. -/
def configError (library match_method : String) : PyError :=
  if library ∈ valid_libraries then .valueErrorMethod match_method
  else .valueErrorLibrary library

/-- Whether a base name is routed to the matched list, phrased directly on
the inner loop's result (meaningful for any configuration): its `best_match`
must come back without error as a non-empty string. -/
def baseOutcomeAccepted (library match_method : String) (similarity_threshold : ℚ)
    (filter_keep : Char → Bool) (filename_mode : Bool) (target_list : List PyStr)
    (b : PyStr) : Bool :=
  match matchBase library match_method similarity_threshold filter_keep filename_mode
      target_list b with
  | .ok (some t) => decide (t ≠ [])
  | _ => false

/-- The matched name a base name receives (default `[]` when it has none),
phrased directly on the inner loop's result. -/
def baseOutcomeName (library match_method : String) (similarity_threshold : ℚ)
    (filter_keep : Char → Bool) (filename_mode : Bool) (target_list : List PyStr)
    (b : PyStr) : PyStr :=
  match matchBase library match_method similarity_threshold filter_keep filename_mode
      target_list b with
  | .ok (some t) => t
  | _ => []

/-! ## Helper lemmas -/

/-- Converting a small code point to a character and back is the identity. -/
theorem toNat_ofNat_small (n : Nat) (h : n < 55296) : (Char.ofNat n).toNat = n := by
  have hv : n.isValidChar := Or.inl h
  rw [Char.ofNat, dif_pos hv]
  rfl

/-- Basic-latin lowercasing is idempotent. -/
theorem toLower_toLower (c : Char) : c.toLower.toLower = c.toLower := by
  by_cases h : c.toNat ≥ 65 ∧ c.toNat ≤ 90
  · have h1 : c.toLower = Char.ofNat (c.toNat + 32) := by
      simp only [Char.toLower, if_pos h]
    have ht : (Char.ofNat (c.toNat + 32)).toNat = c.toNat + 32 :=
      toNat_ofNat_small _ (by omega)
    rw [h1]
    simp only [Char.toLower, ht]
    rw [if_neg (by omega)]
  · have h1 : c.toLower = c := by
      simp only [Char.toLower, if_neg h]
    rw [h1, h1]

/-- Splitting on a character that does not occur returns the whole string. -/
theorem splitOnChar_of_not_mem (sep : Char) (s : PyStr) (h : sep ∉ s) :
    splitOnChar sep s = [s] := by
  induction s with
  | nil => rfl
  | cons x xs ih =>
    have hx : x ≠ sep := fun hxs => h (hxs ▸ List.mem_cons_self x xs)
    have hxs : sep ∉ xs := fun hm => h (List.mem_cons_of_mem x hm)
    simp only [splitOnChar, ih hxs, if_neg hx]

/-- For a separator-free string other than `'.'`, the path name is the
string itself. -/
theorem pathName_eq_self (s : PyStr) (h1 : '/' ∉ s) (h2 : s ≠ ['.']) :
    pathName s = s := by
  unfold pathName pathComponents
  rw [splitOnChar_of_not_mem '/' s h1]
  rcases eq_or_ne s [] with hs | hs
  · subst hs; rfl
  · simp [List.filter, hs, h2]

/-- `rfindChar` returns an index inside the string. -/
theorem rfindChar_lt_length (c : Char) (s : PyStr) (i : Nat)
    (h : rfindChar c s = some i) : i < s.length := by
  induction s generalizing i with
  | nil => simp [rfindChar] at h
  | cons x xs ih =>
    simp only [rfindChar] at h
    cases hr : rfindChar c xs with
    | some j =>
      rw [hr] at h
      cases h
      exact Nat.succ_lt_succ (ih j hr)
    | none =>
      rw [hr] at h
      by_cases hx : x = c
      · rw [if_pos hx] at h
        cases h
        exact Nat.succ_pos _
      · rw [if_neg hx] at h
        cases h

/-! ## Claim theorems: normalizer, filename filter, extension stripping -/

/-- C6: for every string and every character-retention pattern, normalization
is idempotent: normalizing an already-normalized string changes nothing. -/
theorem c6_normalize_string_idempotent (filter_keep : Char → Bool) (s : PyStr) :
    normalize_string (normalize_string s filter_keep) filter_keep =
      normalize_string s filter_keep := by
  unfold normalize_string
  have hmap : (((s.map Char.toLower).filter filter_keep).map Char.toLower) =
      (s.map Char.toLower).filter filter_keep := by
    have : ∀ x ∈ (s.map Char.toLower).filter filter_keep, Char.toLower x = x := by
      intro x hx
      have hx' : x ∈ s.map Char.toLower := List.mem_of_mem_filter hx
      rcases List.mem_map.mp hx' with ⟨y, _, rfl⟩
      exact toLower_toLower y
    calc ((s.map Char.toLower).filter filter_keep).map Char.toLower
        = ((s.map Char.toLower).filter filter_keep).map id := List.map_congr_left this
      _ = (s.map Char.toLower).filter filter_keep := List.map_id _
  rw [hmap]
  exact List.filter_eq_self.mpr (fun a ha => List.of_mem_filter ha)

/-- C7: `is_valid_filename` is a total Boolean predicate; under the
`windows` rule it returns `false` exactly when the name contains one of the
nine forbidden characters, and under the `unix` rule exactly when it
contains `'/'` or the NUL character. -/
theorem c7_is_valid_filename_characterization (filename : PyStr) :
    (is_valid_filename filename "windows" = false ↔
      ∃ c ∈ filename, c ∈ windowsForbidden) ∧
    (is_valid_filename filename "unix" = false ↔
      ('/' ∈ filename ∨ Char.ofNat 0 ∈ filename)) := by
  constructor
  · simp [is_valid_filename, List.any_eq_true]
  · simp only [is_valid_filename, List.contains_eq_any_beq, List.any_eq_true]
    simp
    exact or_iff_not_imp_left.symm

/-- C5 counterexample: on the input `"file."` (a trailing dot), the code
returns the string unchanged, while the claimed rule removes everything from
the last dot on and returns `"file"`. -/
theorem c5_counterexample :
    claimedRemoveExtension "file.".toList = "file".toList ∧
    remove_extension "file.".toList = "file.".toList ∧
    "file.".toList ≠ "file".toList := by
  refine ⟨by decide, by decide, by decide⟩

/-- C5 (amended): for a string without a path separator and different from
`"."`, extension stripping removes everything after and including the last
`'.'`, unless the string has no dot, the only dot is the leading character,
or the dot is the final character (then the string is returned unchanged);
in particular `"archive.tar.gz" ↦ "archive.tar"`, and `".hidden_file"` and
`"no_extension"` are unchanged. -/
theorem c5_remove_extension_amended (s : PyStr) (h1 : '/' ∉ s) (h2 : s ≠ ['.']) :
    remove_extension s = amendedRemoveExtension s := by
  have hp : pathName s = s := pathName_eq_self s h1 h2
  unfold remove_extension
  rw [hp]
  cases hr : rfindChar '.' s with
  | none => simp [stemOfName, amendedRemoveExtension, hr]
  | some i =>
    have hi : i < s.length := rfindChar_lt_length '.' s i hr
    simp only [stemOfName, amendedRemoveExtension, hr]
    by_cases hcond : i = 0 ∨ i = s.length - 1
    · rw [if_pos hcond, if_neg (by omega)]
    · rw [if_neg hcond, if_pos (by omega)]

/-- C5 witness: the amended rule applied to `"archive.tar.gz"`. -/
theorem c5_witness :
    ('/' ∉ "archive.tar.gz".toList) ∧ "archive.tar.gz".toList ≠ ['.'] ∧
    remove_extension "archive.tar.gz".toList =
      amendedRemoveExtension "archive.tar.gz".toList :=
  ⟨by decide, by decide, c5_remove_extension_amended _ (by decide) (by decide)⟩

/-! ## Score range lemmas -/

/-- A longest common subsequence is no longer than either string. -/
theorem lcsF_le (fuel : Nat) : ∀ a b : PyStr,
    lcsF fuel a b ≤ a.length ∧ lcsF fuel a b ≤ b.length := by
  induction fuel with
  | zero =>
    intro a b
    cases a <;> cases b <;> simp [lcsF]
  | succ f ih =>
    intro a b
    cases a with
    | nil => simp [lcsF]
    | cons x xs =>
      cases b with
      | nil => simp [lcsF]
      | cons y ys =>
        simp only [lcsF, List.length_cons]
        by_cases h : x = y
        · rw [if_pos h]
          exact ⟨Nat.succ_le_succ (ih xs ys).1, Nat.succ_le_succ (ih xs ys).2⟩
        · rw [if_neg h]
          constructor
          · apply max_le
            · exact Nat.le_trans (ih (x :: xs) ys).1 (by simp)
            · exact Nat.le_trans (ih xs (y :: ys)).1 (Nat.le_succ _)
          · apply max_le
            · exact Nat.le_trans (ih (x :: xs) ys).2 (Nat.le_succ _)
            · exact Nat.le_trans (ih xs (y :: ys)).2 (by simp)

/-- `ratio_rf` always lies in `[0, 100]`. -/
theorem ratio_rf_range (a b : PyStr) : 0 ≤ ratio_rf a b ∧ ratio_rf a b ≤ 100 := by
  unfold ratio_rf
  by_cases h : a.length + b.length = 0
  · rw [if_pos h]; norm_num
  · rw [if_neg h]
    have hpos : (0 : ℚ) < (a.length : ℚ) + (b.length : ℚ) := by
      have : 0 < a.length + b.length := Nat.pos_of_ne_zero h
      exact_mod_cast this
    have hlcs : 2 * (lcsLen a b : ℚ) ≤ (a.length : ℚ) + (b.length : ℚ) := by
      have h1 := (lcsF_le (a.length + b.length) a b).1
      have h2 := (lcsF_le (a.length + b.length) a b).2
      have : 2 * lcsLen a b ≤ a.length + b.length := by
        unfold lcsLen; omega
      exact_mod_cast this
    constructor
    · positivity
    · rw [div_le_iff₀ hpos]
      nlinarith

/-- The seed is a lower bound of a left max-fold. -/
theorem le_foldl_max (l : List ℚ) (c : ℚ) : c ≤ l.foldl max c := by
  induction l generalizing c with
  | nil => exact le_refl c
  | cons x xs ih => exact le_trans (le_max_left c x) (ih (max c x))

/-- A left max-fold stays below any bound dominating the seed and the
elements. -/
theorem foldl_max_le (l : List ℚ) (c B : ℚ) (hc : c ≤ B) (hl : ∀ x ∈ l, x ≤ B) :
    l.foldl max c ≤ B := by
  induction l generalizing c with
  | nil => exact hc
  | cons x xs ih =>
    exact ih (max c x) (max_le hc (hl x (List.mem_cons_self x xs)))
      (fun y hy => hl y (List.mem_cons_of_mem x hy))

/-- A best-window score under a `[0, 100]`-valued similarity lies in
`[0, 100]`. -/
theorem bestWindowScore_range (sim : PyStr → PyStr → ℚ)
    (hsim : ∀ x y, 0 ≤ sim x y ∧ sim x y ≤ 100) (a b : PyStr) :
    0 ≤ bestWindowScore sim a b ∧ bestWindowScore sim a b ≤ 100 := by
  unfold bestWindowScore
  constructor
  · exact le_foldl_max _ 0
  · apply foldl_max_le _ _ _ (by norm_num)
    intro x hx
    rcases List.mem_map.mp hx with ⟨w, _, rfl⟩
    exact (hsim _ w).2

/-- Rounding keeps a score inside `[0, 100]`. -/
theorem round_range (x : ℚ) (h0 : 0 ≤ x) (h1 : x ≤ 100) :
    (0 : ℤ) ≤ round x ∧ round x ≤ (100 : ℤ) := by
  rw [round_eq]
  constructor
  · have : (0 : ℤ) = ⌊(0 : ℚ) + 1 / 2⌋ := by norm_num
    rw [this]
    exact Int.floor_le_floor (by linarith)
  · have : (100 : ℤ) = ⌊(100 : ℚ) + 1 / 2⌋ := by norm_num
    rw [this]
    exact Int.floor_le_floor (by linarith)

/-- For a list of distinct characters, the total number of their occurrences
in `b` is at most the length of `b`. -/
theorem sum_count_le_length (S : List Char) (hS : S.Nodup) (b : PyStr) :
    (S.map (fun c => b.count c)).sum ≤ b.length := by
  induction S generalizing b with
  | nil => simp
  | cons c S' ih =>
    simp only [List.map_cons, List.sum_cons]
    have hnd := List.nodup_cons.mp hS
    have hcongr : S'.map (fun d => b.count d) =
        S'.map (fun d => (b.filter (fun x => !(x == c))).count d) := by
      apply List.map_congr_left
      intro d hd
      have hdc : (fun x => !(x == c)) d = true := by
        simp only [Bool.not_eq_true']
        exact beq_eq_false_iff_ne.mpr (fun h => hnd.1 (h ▸ hd))
      exact (List.count_filter (p := fun x => !(x == c)) (a := d) hdc).symm
    have hsplit : b.count c + (b.filter (fun x => !(x == c))).length = b.length := by
      have h := List.length_eq_countP_add_countP (fun x => x == c) b
      rw [List.count_eq_countP, ← List.countP_eq_length_filter]
      convert h.symm using 3
      funext x
      by_cases hx : x = c <;> simp [hx]
    calc b.count c + (S'.map (fun d => b.count d)).sum
        = b.count c + (S'.map (fun d => (b.filter (fun x => !(x == c))).count d)).sum := by
          rw [hcongr]
      _ ≤ b.count c + (b.filter (fun x => !(x == c))).length := by
          exact Nat.add_le_add_left (ih hnd.2 _) _
      _ = b.length := hsplit

/-- The multiset-intersection size is no larger than either string length. -/
theorem quickMatches_le (a b : PyStr) :
    quickMatches a b ≤ a.length ∧ quickMatches a b ≤ b.length := by
  constructor
  · unfold quickMatches
    calc (a.dedup.map (fun c => min (a.count c) (b.count c))).sum
        ≤ (a.dedup.map (fun c => a.count c)).sum :=
          List.sum_le_sum (fun c _ => min_le_left _ _)
      _ = a.length := List.sum_map_count_dedup_eq_length a
  · unfold quickMatches
    calc (a.dedup.map (fun c => min (a.count c) (b.count c))).sum
        ≤ (a.dedup.map (fun c => b.count c)).sum :=
          List.sum_le_sum (fun c _ => min_le_right _ _)
      _ ≤ b.length := sum_count_le_length a.dedup a.nodup_dedup b

/-- `100 * quick_ratio_sm` always lies in `[0, 100]`. -/
theorem quick_ratio_sm_range (a b : PyStr) :
    0 ≤ 100 * quick_ratio_sm a b ∧ 100 * quick_ratio_sm a b ≤ 100 := by
  unfold quick_ratio_sm
  by_cases h : a.length + b.length = 0
  · rw [if_pos h]; norm_num
  · rw [if_neg h]
    have hpos : (0 : ℚ) < (a.length : ℚ) + (b.length : ℚ) := by
      have : 0 < a.length + b.length := Nat.pos_of_ne_zero h
      exact_mod_cast this
    have hqm : 2 * (quickMatches a b : ℚ) ≤ (a.length : ℚ) + (b.length : ℚ) := by
      have h1 := (quickMatches_le a b).1
      have h2 := (quickMatches_le a b).2
      have : 2 * quickMatches a b ≤ a.length + b.length := by omega
      exact_mod_cast this
    constructor
    · positivity
    · have h1 : 2 * (quickMatches a b : ℚ) / ((a.length : ℚ) + (b.length : ℚ)) ≤ 1 := by
        rw [div_le_one hpos]
        exact hqm
      linarith

/-! ## Matcher helper lemmas -/

/-- For a valid configuration `get_score` succeeds with the pure dispatch. -/
theorem get_score_valid (library match_method : String)
    (hl : library ∈ valid_libraries) (hm : match_method ∈ valid_methods)
    (a b : PyStr) :
    get_score library match_method a b = .ok (scoreFn library match_method a b) := by
  unfold valid_libraries at hl
  unfold valid_methods at hm
  fin_cases hl <;> fin_cases hm <;> rfl

/-- For an invalid configuration `get_score` fails with the configuration
error, the library check coming first. -/
theorem get_score_invalid (library match_method : String)
    (hc : ¬(library ∈ valid_libraries ∧ match_method ∈ valid_methods))
    (a b : PyStr) :
    get_score library match_method a b = .error (configError library match_method) := by
  by_cases hl : library ∈ valid_libraries
  · have hm : match_method ∉ valid_methods := fun h => hc ⟨hl, h⟩
    unfold get_score configError
    rw [if_neg (not_not_intro hl), if_pos hm, if_pos hl]
  · unfold get_score configError
    rw [if_pos hl, if_neg hl]

/-- The seed bounds a running-max fold from below. -/
theorem le_foldl_maxf (f : PyStr → ℚ) (l : List PyStr) (c : ℚ) :
    c ≤ l.foldl (fun m t => max m (f t)) c := by
  induction l generalizing c with
  | nil => exact le_refl c
  | cons x xs ih => exact le_trans (le_max_left c (f x)) (ih (max c (f x)))

/-- Every element's score bounds a running-max fold from below. -/
theorem mem_le_foldl_maxf (f : PyStr → ℚ) (l : List PyStr) (c : ℚ) (x : PyStr)
    (hx : x ∈ l) : f x ≤ l.foldl (fun m t => max m (f t)) c := by
  induction l generalizing c with
  | nil => cases hx
  | cons y ys ih =>
    rcases List.mem_cons.mp hx with h | h
    · subst h
      exact le_trans (le_max_right c (f x)) (le_foldl_maxf f ys (max c (f x)))
    · exact ih _ h

/-- A running-max fold returns its seed or the score of a list element. -/
theorem foldl_maxf_cases (f : PyStr → ℚ) (l : List PyStr) (c : ℚ) :
    l.foldl (fun m t => max m (f t)) c = c ∨
      ∃ x ∈ l, l.foldl (fun m t => max m (f t)) c = f x := by
  induction l generalizing c with
  | nil => exact Or.inl rfl
  | cons y ys ih =>
    rcases ih (max c (f y)) with h | ⟨x, hx, hfx⟩
    · rcases max_cases c (f y) with ⟨hm, _⟩ | ⟨hm, _⟩
      · exact Or.inl (by simp only [List.foldl_cons]; rw [h, hm])
      · exact Or.inr ⟨y, List.mem_cons_self y ys, by simp only [List.foldl_cons]; rw [h, hm]⟩
    · exact Or.inr ⟨x, List.mem_cons_of_mem y hx, by simp only [List.foldl_cons]; rw [hfx]⟩

/-- The initial `highest_score = 0` bounds the running maximum from below. -/
theorem maxScoreList_nonneg (f : PyStr → ℚ) (l : List PyStr) : 0 ≤ maxScoreList f l :=
  le_foldl_maxf f l 0

/-- Every considered target's score is at most the running maximum. -/
theorem le_maxScoreList_of_mem (f : PyStr → ℚ) (l : List PyStr) (x : PyStr)
    (hx : x ∈ l) : f x ≤ maxScoreList f l :=
  mem_le_foldl_maxf f l 0 x hx

/-- Appending one target to the list takes a max with its score. -/
theorem maxScoreList_append (f : PyStr → ℚ) (l : List PyStr) (t : PyStr) :
    maxScoreList f (l ++ [t]) = max (maxScoreList f l) (f t) := by
  unfold maxScoreList
  rw [List.foldl_append]
  rfl

/-- A positive running maximum is attained by some element. -/
theorem maxScoreList_attained (f : PyStr → ℚ) (l : List PyStr)
    (h : 0 < maxScoreList f l) : ∃ x ∈ l, f x = maxScoreList f l := by
  rcases foldl_maxf_cases f l 0 with h0 | ⟨x, hx, hfx⟩
  · exact absurd (h.trans_le (le_of_eq h0)) (lt_irrefl 0)
  · exact ⟨x, hx, hfx.symm⟩

/-- A first-maximum witness is an element of the list. -/
theorem firstMaxTarget_mem (f : PyStr → ℚ) (M : ℚ) (l : List PyStr) (t : PyStr)
    (h : firstMaxTarget f M l = some t) : t ∈ l := by
  induction l with
  | nil => cases h
  | cons y ys ih =>
    by_cases hy : f y = M
    · simp only [firstMaxTarget, if_pos hy] at h
      cases h
      exact List.mem_cons_self _ _
    · simp only [firstMaxTarget, if_neg hy] at h
      exact List.mem_cons_of_mem y (ih h)

/-- A first-maximum witness scores exactly the maximum. -/
theorem firstMaxTarget_score (f : PyStr → ℚ) (M : ℚ) (l : List PyStr) (t : PyStr)
    (h : firstMaxTarget f M l = some t) : f t = M := by
  induction l with
  | nil => cases h
  | cons y ys ih =>
    by_cases hy : f y = M
    · simp only [firstMaxTarget, if_pos hy] at h
      cases h
      exact hy
    · simp only [firstMaxTarget, if_neg hy] at h
      exact ih h

/-- If the maximum is attained, the first-maximum search succeeds. -/
theorem firstMaxTarget_isSome (f : PyStr → ℚ) (M : ℚ) (l : List PyStr)
    (h : ∃ x ∈ l, f x = M) : ∃ t, firstMaxTarget f M l = some t := by
  induction l with
  | nil => rcases h with ⟨x, hx, _⟩; cases hx
  | cons y ys ih =>
    by_cases hy : f y = M
    · exact ⟨y, by simp only [firstMaxTarget, if_pos hy]⟩
    · rcases h with ⟨x, hx, hfx⟩
      rcases List.mem_cons.mp hx with rfl | hx'
      · exact absurd hfx hy
      · rcases ih ⟨x, hx', hfx⟩ with ⟨t, ht⟩
        exact ⟨t, by simp only [firstMaxTarget, if_neg hy]; exact ht⟩

/-- Appending a target when nothing in the list attains `M`. -/
theorem firstMaxTarget_append_of_none (f : PyStr → ℚ) (M : ℚ) (l : List PyStr)
    (t : PyStr) (h : ∀ x ∈ l, f x ≠ M) :
    firstMaxTarget f M (l ++ [t]) = if f t = M then some t else none := by
  induction l with
  | nil => rfl
  | cons y ys ih =>
    have hy : f y ≠ M := h y (List.mem_cons_self y ys)
    rw [List.cons_append]
    simp only [firstMaxTarget, if_neg hy]
    exact ih (fun x hx => h x (List.mem_cons_of_mem y hx))

/-- Appending a target does not change an already-found first maximum. -/
theorem firstMaxTarget_append_of_some (f : PyStr → ℚ) (M : ℚ) (l : List PyStr)
    (t y : PyStr) (h : firstMaxTarget f M l = some y) :
    firstMaxTarget f M (l ++ [t]) = some y := by
  induction l with
  | nil => cases h
  | cons z zs ih =>
    by_cases hz : f z = M
    · simp only [firstMaxTarget, if_pos hz] at h
      cases h
      rw [List.cons_append]
      simp only [firstMaxTarget, if_pos hz]
    · simp only [firstMaxTarget, if_neg hz] at h
      rw [List.cons_append]
      simp only [firstMaxTarget, if_neg hz]
      exact ih h

/-- Unfolding equation for `bestPure`. -/
theorem bestPure_def (th : ℚ) (f : PyStr → ℚ) (L : List PyStr) :
    bestPure th f L =
      if 0 < maxScoreList f L ∧ th ≤ maxScoreList f L then
        firstMaxTarget f (maxScoreList f L) L
      else none :=
  rfl

/-- The inner loop's fold from `(0, None)` computes the running maximum and
the first above-threshold maximal target. -/
theorem foldl_stepBest_eq (th : ℚ) (f : PyStr → ℚ) (l : List PyStr) :
    l.foldl (stepBest th f) (0, none) = (maxScoreList f l, bestPure th f l) := by
  induction l using List.reverseRecOn with
  | nil =>
    rw [List.foldl_nil, bestPure_def]
    have h0 : maxScoreList f [] = 0 := rfl
    rw [h0, if_neg (fun hc => lt_irrefl 0 hc.1)]
  | append_singleton l t ih =>
    rw [List.foldl_append, ih, List.foldl_cons, List.foldl_nil]
    have hMl := maxScoreList_nonneg f l
    have hMapp := maxScoreList_append f l t
    by_cases hlt : maxScoreList f l < f t
    · have hstep : stepBest th f (maxScoreList f l, bestPure th f l) t =
          (f t, if th ≤ f t then some t else bestPure th f l) := by
        unfold stepBest
        rw [if_pos hlt]
      rw [hstep]
      have hmax : maxScoreList f (l ++ [t]) = f t := by
        rw [hMapp]
        exact max_eq_right hlt.le
      have hpos : 0 < f t := lt_of_le_of_lt hMl hlt
      by_cases hth : th ≤ f t
      · have hfm : firstMaxTarget f (f t) (l ++ [t]) = some t := by
          rw [firstMaxTarget_append_of_none f (f t) l t
            (fun x hx => ne_of_lt (lt_of_le_of_lt (le_maxScoreList_of_mem f l x hx) hlt)),
            if_pos rfl]
        rw [if_pos hth, bestPure_def, hmax, if_pos ⟨hpos, hth⟩, hfm]
      · have hbl : bestPure th f l = none := by
          rw [bestPure_def, if_neg]
          rintro ⟨_, hthM⟩
          exact hth (le_trans hthM hlt.le)
        rw [if_neg hth, hbl, hmax, bestPure_def, hmax, if_neg (fun hc => hth hc.2)]
    · have hstep : stepBest th f (maxScoreList f l, bestPure th f l) t =
          (maxScoreList f l, bestPure th f l) := by
        unfold stepBest
        rw [if_neg hlt]
      rw [hstep]
      have hmax : maxScoreList f (l ++ [t]) = maxScoreList f l := by
        rw [hMapp]
        exact max_eq_left (not_lt.mp hlt)
      have hbp : bestPure th f (l ++ [t]) = bestPure th f l := by
        rw [bestPure_def, bestPure_def, hmax]
        by_cases hcond : 0 < maxScoreList f l ∧ th ≤ maxScoreList f l
        · rcases firstMaxTarget_isSome f (maxScoreList f l) l
              (maxScoreList_attained f l hcond.1) with ⟨y, hy⟩
          rw [if_pos hcond, if_pos hcond, firstMaxTarget_append_of_some f _ l t y hy, hy]
        · rw [if_neg hcond, if_neg hcond]
      rw [hmax, hbp]

/-- Binding an `ok` value applies the continuation. -/
theorem except_bind_ok {α β : Type} (a : α) (g : α → Except PyError β) :
    ((.ok a : Except PyError α) >>= g) = g a :=
  rfl

/-- Mapping over an `ok` value applies the function. -/
theorem except_map_ok {α β : Type} (f : α → β) (a : α) :
    (Except.map f (.ok a : Except PyError α)) = .ok (f a) :=
  rfl

/-- Mapping over an error keeps the error. -/
theorem except_map_error {α β : Type} (f : α → β) (e : PyError) :
    (Except.map f (.error e : Except PyError α)) = .error e :=
  rfl

/-- A skipped target (filename mode, invalid name) leaves the state alone. -/
theorem processTarget_skip (library match_method : String) (th : ℚ) (pat : Char → Bool)
    (fm : Bool) (nb : PyStr) (st : ℚ × Option PyStr) (t : PyStr)
    (hsk : (fm && !(is_valid_filename t "windows")) = true) :
    processTarget library match_method th pat fm nb st t = .ok st := by
  unfold processTarget
  rw [if_pos hsk]

/-- A scored target under a valid configuration performs the pure
running-best update. -/
theorem processTarget_valid_eq (library match_method : String)
    (hl : library ∈ valid_libraries) (hm : match_method ∈ valid_methods)
    (th : ℚ) (pat : Char → Bool) (fm : Bool) (nb : PyStr)
    (st : ℚ × Option PyStr) (t : PyStr)
    (hsk : (fm && !(is_valid_filename t "windows")) = false) :
    processTarget library match_method th pat fm nb st t =
      .ok (stepBest th (targetScore library match_method pat fm nb) st t) := by
  have hup : processTarget library match_method th pat fm nb st t =
      (if st.1 < targetScore library match_method pat fm nb t then
        Except.ok (targetScore library match_method pat fm nb t,
          if th ≤ targetScore library match_method pat fm nb t then some t else st.2)
      else Except.ok st) := by
    unfold processTarget
    rw [if_neg (by simp [hsk])]
    show (match get_score library match_method nb (normalizedTarget pat fm t) with
      | Except.error e => (Except.error e : Except PyError (ℚ × Option PyStr))
      | Except.ok score =>
        if st.1 < score then
          Except.ok (score, if th ≤ score then some t else st.2)
        else Except.ok st) = _
    rw [get_score_valid library match_method hl hm]
    rfl
  rw [hup]
  unfold stepBest
  by_cases hc : st.1 < targetScore library match_method pat fm nb t
  · rw [if_pos hc, if_pos hc]
  · rw [if_neg hc, if_neg hc]

/-- The considered-target list drops a skipped head. -/
theorem consideredTargets_cons_skip (fm : Bool) (t : PyStr) (ts : List PyStr)
    (hsk : (fm && !(is_valid_filename t "windows")) = true) :
    consideredTargets fm (t :: ts) = consideredTargets fm ts := by
  rcases Bool.and_eq_true_iff.mp hsk with ⟨hfm, hval⟩
  have hv : is_valid_filename t "windows" = false := by
    cases h : is_valid_filename t "windows"
    · rfl
    · rw [h] at hval
      cases hval
  unfold consideredTargets
  rw [hfm, if_pos rfl, if_pos rfl, List.filter_cons, if_neg (by rw [hv]; exact Bool.false_ne_true)]

/-- The considered-target list keeps a non-skipped head. -/
theorem consideredTargets_cons_keep (fm : Bool) (t : PyStr) (ts : List PyStr)
    (hsk : (fm && !(is_valid_filename t "windows")) = false) :
    consideredTargets fm (t :: ts) = t :: consideredTargets fm ts := by
  cases hfm : fm with
  | false => unfold consideredTargets; rw [if_neg (by simp), if_neg (by simp)]
  | true =>
    rw [hfm] at hsk
    have hv : is_valid_filename t "windows" = true := by
      cases h : is_valid_filename t "windows"
      · rw [h] at hsk
        cases hsk
      · rfl
    unfold consideredTargets
    rw [if_pos rfl, if_pos rfl, List.filter_cons, if_pos (by rw [hv])]

/-- Under a valid configuration, the inner loop over the target list is the
pure running-best fold over the considered targets. -/
theorem foldlM_processTarget_valid (library match_method : String)
    (hl : library ∈ valid_libraries) (hm : match_method ∈ valid_methods)
    (th : ℚ) (pat : Char → Bool) (fm : Bool) (nb : PyStr) :
    ∀ (tl : List PyStr) (st : ℚ × Option PyStr),
      tl.foldlM (processTarget library match_method th pat fm nb) st =
        .ok ((consideredTargets fm tl).foldl
          (stepBest th (targetScore library match_method pat fm nb)) st) := by
  intro tl
  induction tl with
  | nil =>
    intro st
    cases fm <;> rfl
  | cons t ts ih =>
    intro st
    rw [List.foldlM_cons]
    by_cases hsk : (fm && !(is_valid_filename t "windows")) = true
    · rw [processTarget_skip library match_method th pat fm nb st t hsk, except_bind_ok,
        ih st, consideredTargets_cons_skip fm t ts hsk]
    · have hsk' : (fm && !(is_valid_filename t "windows")) = false :=
        Bool.eq_false_iff.mpr hsk
      rw [processTarget_valid_eq library match_method hl hm th pat fm nb st t hsk',
        except_bind_ok, ih _, consideredTargets_cons_keep fm t ts hsk', List.foldl_cons]

/-- Under a valid configuration, the inner loop returns exactly the pure
best match of the base name. -/
theorem matchBase_valid (library match_method : String)
    (hl : library ∈ valid_libraries) (hm : match_method ∈ valid_methods)
    (th : ℚ) (pat : Char → Bool) (fm : Bool) (tl : List PyStr) (b : PyStr) :
    matchBase library match_method th pat fm tl b =
      .ok (baseBest library match_method th pat fm tl b) := by
  unfold matchBase baseBest
  rw [foldlM_processTarget_valid library match_method hl hm th pat fm _ tl ((0 : ℚ), none),
    foldl_stepBest_eq]
  rfl

/-- Accumulator version of the valid-configuration run: the outer loop
appends, per base name in order, a match record when the base is accepted and
the base name itself otherwise. -/
theorem string_matching_aux_valid (library match_method : String)
    (hl : library ∈ valid_libraries) (hm : match_method ∈ valid_methods)
    (th : ℚ) (pat : Char → Bool) (fm : Bool) (tl : List PyStr) :
    ∀ (bl : List PyStr) (am : List MatchRecord) (au : List PyStr),
      bl.foldlM
          (fun st base_name =>
            (matchBase library match_method th pat fm tl base_name).map
              (appendResult st base_name)) (am, au) =
        .ok (am ++ (bl.filter (baseAccepted library match_method th pat fm tl)).map
              (fun b => MatchRecord.mk b
                ((baseBest library match_method th pat fm tl b).getD [])),
            au ++ bl.filter (fun b => !(baseAccepted library match_method th pat fm tl b))) := by
  intro bl
  induction bl with
  | nil =>
    intro am au
    simp only [List.foldlM_nil, List.filter_nil, List.map_nil, List.append_nil]
    rfl
  | cons b bs ih =>
    intro am au
    rw [List.foldlM_cons, matchBase_valid library match_method hl hm th pat fm tl b,
      except_map_ok, except_bind_ok]
    cases hbb : baseBest library match_method th pat fm tl b with
    | none =>
      have hacc : baseAccepted library match_method th pat fm tl b = false := by
        unfold baseAccepted
        rw [hbb]
      have happ : appendResult (am, au) b none = (am, au ++ [b]) := rfl
      rw [happ, ih am (au ++ [b])]
      rw [List.filter_cons, List.filter_cons, hacc]
      simp
    | some t =>
      by_cases ht : t = []
      · have hacc : baseAccepted library match_method th pat fm tl b = false := by
          unfold baseAccepted
          rw [hbb]
          simp [ht]
        have happ : appendResult (am, au) b (some t) = (am, au ++ [b]) := by
          simp only [appendResult]
          rw [if_pos ht]
        rw [happ, ih am (au ++ [b])]
        rw [List.filter_cons, List.filter_cons, hacc]
        simp
      · have hacc : baseAccepted library match_method th pat fm tl b = true := by
          unfold baseAccepted
          rw [hbb]
          simp [ht]
        have happ : appendResult (am, au) b (some t) =
            (am ++ [MatchRecord.mk b t], au) := by
          simp only [appendResult]
          rw [if_neg ht]
        rw [happ, ih (am ++ [MatchRecord.mk b t]) au]
        rw [List.filter_cons, List.filter_cons, hacc]
        have hgd : (baseBest library match_method th pat fm tl b).getD [] = t := by
          rw [hbb]
          rfl
        simp [hgd]

/-- Characterization of a valid-configuration run of `string_matching`: it
returns without error, the matched list holds, in base order, a record for
every accepted base name paired with its pure best match, and the unmatched
list holds exactly the other base names. -/
theorem string_matching_valid_eq (library match_method : String)
    (hl : library ∈ valid_libraries) (hm : match_method ∈ valid_methods)
    (bl tl : List PyStr) (th : ℚ) (pat : Char → Bool) (fm : Bool) :
    string_matching bl tl library match_method th pat fm =
      .ok ((bl.filter (baseAccepted library match_method th pat fm tl)).map
            (fun b => MatchRecord.mk b
              ((baseBest library match_method th pat fm tl b).getD [])),
          bl.filter (fun b => !(baseAccepted library match_method th pat fm tl b))) := by
  unfold string_matching
  rw [string_matching_aux_valid library match_method hl hm th pat fm tl bl [] []]
  simp

/-- Accumulator version of any run of `string_matching` that returns without
error: the outputs are determined base name by base name by the inner loop's
outcome. -/
theorem string_matching_aux_ok (library match_method : String) (th : ℚ)
    (pat : Char → Bool) (fm : Bool) (tl : List PyStr) :
    ∀ (bl : List PyStr) (am : List MatchRecord) (au : List PyStr)
      (ms : List MatchRecord) (us : List PyStr),
      bl.foldlM
          (fun st base_name =>
            (matchBase library match_method th pat fm tl base_name).map
              (appendResult st base_name)) (am, au) = .ok (ms, us) →
      ms = am ++ (bl.filter (baseOutcomeAccepted library match_method th pat fm tl)).map
            (fun b => MatchRecord.mk b (baseOutcomeName library match_method th pat fm tl b)) ∧
      us = au ++ bl.filter (fun b => !(baseOutcomeAccepted library match_method th pat fm tl b)) := by
  intro bl
  induction bl with
  | nil =>
    intro am au ms us h
    rw [List.foldlM_nil] at h
    cases h
    simp
  | cons b bs ih =>
    intro am au ms us h
    rw [List.foldlM_cons] at h
    cases hmb : matchBase library match_method th pat fm tl b with
    | error e =>
      rw [hmb, except_map_error] at h
      cases h
    | ok best =>
      rw [hmb, except_map_ok, except_bind_ok] at h
      cases best with
      | none =>
        have hacc : baseOutcomeAccepted library match_method th pat fm tl b = false := by
          unfold baseOutcomeAccepted
          rw [hmb]
        have happ : appendResult (am, au) b none = (am, au ++ [b]) := rfl
        rw [happ] at h
        rcases ih am (au ++ [b]) ms us h with ⟨hms, hus⟩
        rw [List.filter_cons, List.filter_cons, hacc]
        constructor
        · rw [hms]
          simp
        · rw [hus]
          simp
      | some t =>
        by_cases ht : t = []
        · have hacc : baseOutcomeAccepted library match_method th pat fm tl b = false := by
            unfold baseOutcomeAccepted
            rw [hmb]
            simp [ht]
          have happ : appendResult (am, au) b (some t) = (am, au ++ [b]) := by
            simp only [appendResult]
            rw [if_pos ht]
          rw [happ] at h
          rcases ih am (au ++ [b]) ms us h with ⟨hms, hus⟩
          rw [List.filter_cons, List.filter_cons, hacc]
          constructor
          · rw [hms]
            simp
          · rw [hus]
            simp
        · have hacc : baseOutcomeAccepted library match_method th pat fm tl b = true := by
            unfold baseOutcomeAccepted
            rw [hmb]
            simp [ht]
          have hnam : baseOutcomeName library match_method th pat fm tl b = t := by
            unfold baseOutcomeName
            rw [hmb]
          have happ : appendResult (am, au) b (some t) =
              (am ++ [MatchRecord.mk b t], au) := by
            simp only [appendResult]
            rw [if_neg ht]
          rw [happ] at h
          rcases ih (am ++ [MatchRecord.mk b t]) au ms us h with ⟨hms, hus⟩
          rw [List.filter_cons, List.filter_cons, hacc]
          constructor
          · rw [hms]
            simp [hnam]
          · rw [hus]
            simp

/-- Any successful run of `string_matching` is determined base name by base
name by the inner loop's outcome: matched records for bases accepted with a
non-empty best match, in base order, unmatched names for the rest. -/
theorem string_matching_ok_eq (library match_method : String) (th : ℚ)
    (pat : Char → Bool) (fm : Bool) (bl tl : List PyStr)
    (ms : List MatchRecord) (us : List PyStr)
    (h : string_matching bl tl library match_method th pat fm = .ok (ms, us)) :
    ms = (bl.filter (baseOutcomeAccepted library match_method th pat fm tl)).map
          (fun b => MatchRecord.mk b (baseOutcomeName library match_method th pat fm tl b)) ∧
    us = bl.filter (fun b => !(baseOutcomeAccepted library match_method th pat fm tl b)) := by
  unfold string_matching at h
  rcases string_matching_aux_ok library match_method th pat fm tl bl [] [] ms us h with ⟨hms, hus⟩
  rw [List.nil_append] at hms hus
  exact ⟨hms, hus⟩

/-- With an invalid configuration, the inner loop raises the configuration
error at the first considered target, and returns the untouched state when no
target is considered. -/
theorem foldlM_processTarget_invalid (library match_method : String)
    (hc : ¬(library ∈ valid_libraries ∧ match_method ∈ valid_methods))
    (th : ℚ) (pat : Char → Bool) (fm : Bool) (nb : PyStr) :
    ∀ (tl : List PyStr) (st : ℚ × Option PyStr),
      (consideredTargets fm tl = [] →
        tl.foldlM (processTarget library match_method th pat fm nb) st = .ok st) ∧
      (consideredTargets fm tl ≠ [] →
        tl.foldlM (processTarget library match_method th pat fm nb) st =
          .error (configError library match_method)) := by
  intro tl
  induction tl with
  | nil =>
    intro st
    refine ⟨fun _ => rfl, fun hne => absurd ?_ hne⟩
    cases fm <;> rfl
  | cons t ts ih =>
    intro st
    by_cases hsk : (fm && !(is_valid_filename t "windows")) = true
    · have hct := consideredTargets_cons_skip fm t ts hsk
      have hstep : (t :: ts).foldlM (processTarget library match_method th pat fm nb) st =
          ts.foldlM (processTarget library match_method th pat fm nb) st := by
        rw [List.foldlM_cons, processTarget_skip library match_method th pat fm nb st t hsk,
          except_bind_ok]
      constructor
      · intro hnil
        rw [hstep]
        exact (ih st).1 (by rw [← hct]; exact hnil)
      · intro hne
        rw [hstep]
        exact (ih st).2 (by rw [← hct]; exact hne)
    · have hsk' : (fm && !(is_valid_filename t "windows")) = false :=
        Bool.eq_false_iff.mpr hsk
      have hct := consideredTargets_cons_keep fm t ts hsk'
      have herr : processTarget library match_method th pat fm nb st t =
          .error (configError library match_method) := by
        unfold processTarget
        rw [if_neg (by simp [hsk'])]
        show (match get_score library match_method nb (normalizedTarget pat fm t) with
          | Except.error e => (Except.error e : Except PyError (ℚ × Option PyStr))
          | Except.ok score =>
            if st.1 < score then
              Except.ok (score, if th ≤ score then some t else st.2)
            else Except.ok st) = _
        rw [get_score_invalid library match_method hc]
      constructor
      · intro hnil
        rw [hct] at hnil
        cases hnil
      · intro _
        rw [List.foldlM_cons, herr]
        rfl

/-- With an invalid configuration, the inner loop returns `best_match = None`
when no target is considered, and the configuration error otherwise. -/
theorem matchBase_invalid (library match_method : String)
    (hc : ¬(library ∈ valid_libraries ∧ match_method ∈ valid_methods))
    (th : ℚ) (pat : Char → Bool) (fm : Bool) (tl : List PyStr) (b : PyStr) :
    (consideredTargets fm tl = [] →
      matchBase library match_method th pat fm tl b = .ok none) ∧
    (consideredTargets fm tl ≠ [] →
      matchBase library match_method th pat fm tl b =
        .error (configError library match_method)) := by
  constructor
  · intro hnil
    unfold matchBase
    rw [(foldlM_processTarget_invalid library match_method hc th pat fm _ tl
      ((0 : ℚ), none)).1 hnil]
    rfl
  · intro hne
    unfold matchBase
    rw [(foldlM_processTarget_invalid library match_method hc th pat fm _ tl
      ((0 : ℚ), none)).2 hne]
    rfl

/-- Inverting a successful pure best match: the winner is a considered
target scoring exactly the running maximum, which is positive and clears the
threshold, and it is the first target found with that score. -/
theorem bestPure_some (th : ℚ) (f : PyStr → ℚ) (l : List PyStr) (t : PyStr)
    (h : bestPure th f l = some t) :
    f t = maxScoreList f l ∧ 0 < maxScoreList f l ∧ th ≤ maxScoreList f l ∧
      t ∈ l ∧ firstMaxTarget f (maxScoreList f l) l = some t := by
  rw [bestPure_def] at h
  by_cases hcond : 0 < maxScoreList f l ∧ th ≤ maxScoreList f l
  · rw [if_pos hcond] at h
    exact ⟨firstMaxTarget_score f _ l t h, hcond.1, hcond.2, firstMaxTarget_mem f _ l t h, h⟩
  · rw [if_neg hcond] at h
    cases h

/-- Considered targets come from the target list. -/
theorem consideredTargets_subset (fm : Bool) (tl : List PyStr) (t : PyStr)
    (ht : t ∈ consideredTargets fm tl) : t ∈ tl := by
  cases fm with
  | false => exact ht
  | true =>
    unfold consideredTargets at ht
    rw [if_pos rfl] at ht
    exact List.mem_of_mem_filter ht

/-- When every base name comes back with `best_match = None`, the outer loop
reports every base name as unmatched. -/
theorem string_matching_aux_nomatch (library match_method : String) (th : ℚ)
    (pat : Char → Bool) (fm : Bool) (tl : List PyStr)
    (hall : ∀ b : PyStr, matchBase library match_method th pat fm tl b = .ok none) :
    ∀ (bl : List PyStr) (am : List MatchRecord) (au : List PyStr),
      bl.foldlM
          (fun st base_name =>
            (matchBase library match_method th pat fm tl base_name).map
              (appendResult st base_name)) (am, au) = .ok (am, au ++ bl) := by
  intro bl
  induction bl with
  | nil =>
    intro am au
    rw [List.foldlM_nil, List.append_nil]
    rfl
  | cons b bs ih =>
    intro am au
    rw [List.foldlM_cons, hall b, except_map_ok, except_bind_ok]
    have happ : appendResult (am, au) b none = (am, au ++ [b]) := rfl
    rw [happ, ih am (au ++ [b]), List.append_assoc]
    rfl

/-- Splitting a list by a Boolean predicate preserves its length. -/
theorem length_filter_add_length_filter_not {α : Type} (p : α → Bool) (l : List α) :
    (l.filter p).length + (l.filter (fun a => !p a)).length = l.length := by
  rw [← List.countP_eq_length_filter, ← List.countP_eq_length_filter]
  have h := List.length_eq_countP_add_countP (p := p) (l := l)
  convert h.symm using 3
  funext a
  cases p a <;> simp

/-- An accepted base name has a non-empty pure best match. -/
theorem baseAccepted_eq_true (library match_method : String) (th : ℚ)
    (pat : Char → Bool) (fm : Bool) (tl : List PyStr) (b : PyStr)
    (h : baseAccepted library match_method th pat fm tl b = true) :
    ∃ t, baseBest library match_method th pat fm tl b = some t ∧ t ≠ [] := by
  unfold baseAccepted at h
  cases hbb : baseBest library match_method th pat fm tl b with
  | none =>
    rw [hbb] at h
    cases h
  | some t =>
    rw [hbb] at h
    exact ⟨t, rfl, by simpa using h⟩

/-- Inverting a match record of a valid run: its base name comes from
`base_list` and its matched name is the inner loop's non-empty best match
for that base name. -/
theorem mem_matches_valid (library match_method : String)
    (hl : library ∈ valid_libraries) (hm : match_method ∈ valid_methods)
    (bl tl : List PyStr) (th : ℚ) (pat : Char → Bool) (fm : Bool)
    (ms : List MatchRecord) (us : List PyStr)
    (h : string_matching bl tl library match_method th pat fm = .ok (ms, us))
    (r : MatchRecord) (hr : r ∈ ms) :
    r.name ∈ bl ∧
    bestPure th (targetScore library match_method pat fm (normalize_string r.name pat))
      (consideredTargets fm tl) = some r.matched_name ∧
    r.matched_name ≠ [] := by
  rw [string_matching_valid_eq library match_method hl hm bl tl th pat fm] at h
  injection h with h2
  have hms : ms = (bl.filter (baseAccepted library match_method th pat fm tl)).map
      (fun b => MatchRecord.mk b ((baseBest library match_method th pat fm tl b).getD [])) :=
    (congrArg Prod.fst h2).symm
  rw [hms] at hr
  rcases List.mem_map.mp hr with ⟨b, hbf, hbr⟩
  rcases baseAccepted_eq_true library match_method th pat fm tl b
      (List.mem_filter.mp hbf).2 with ⟨t, hbb, ht⟩
  have hgd : (baseBest library match_method th pat fm tl b).getD [] = t := by
    rw [hbb]
    rfl
  rw [hgd] at hbr
  subst hbr
  exact ⟨List.mem_of_mem_filter hbf, hbb, ht⟩

/-! ## Claim theorems: matcher -/

/-- C1 counterexample: with the invalid library `"bogus"` and both lists
empty, the call does not fail — it returns the empty result. -/
theorem c1_counterexample :
    ("bogus" ∉ valid_libraries) ∧
    string_matching [] [] "bogus" "exact" 80 defaultKeep true = .ok ([], []) := by
  refine ⟨by decide, rfl⟩

/-- C1 (amended): with an invalid configuration the call fails with the
configuration `ValueError` — raised at the first pair reaching `get_score`,
before any result is returned — whenever at least one pair is scored, i.e.
`base_list` is non-empty and some target survives the validity filter; if no
pair is ever scored (empty `base_list`, or no considered target) the call
instead returns normally with every base name unmatched. -/
theorem c1_invalid_configuration (library match_method : String)
    (hc : ¬(library ∈ valid_libraries ∧ match_method ∈ valid_methods))
    (bl tl : List PyStr) (th : ℚ) (pat : Char → Bool) (fm : Bool) :
    (bl = [] ∨ consideredTargets fm tl = [] →
      string_matching bl tl library match_method th pat fm = .ok ([], bl)) ∧
    (bl ≠ [] → consideredTargets fm tl ≠ [] →
      string_matching bl tl library match_method th pat fm =
        .error (configError library match_method)) := by
  constructor
  · rintro (hbl | hct)
    · subst hbl
      rfl
    · unfold string_matching
      have hall : ∀ b : PyStr,
          matchBase library match_method th pat fm tl b = .ok none :=
        fun b => (matchBase_invalid library match_method hc th pat fm tl b).1 hct
      rw [string_matching_aux_nomatch library match_method th pat fm tl hall bl [] []]
      rfl
  · intro hbl hct
    cases bl with
    | nil => exact absurd rfl hbl
    | cons b bs =>
      unfold string_matching
      rw [List.foldlM_cons,
        (matchBase_invalid library match_method hc th pat fm tl b).2 hct, except_map_error]
      rfl

/-- C1 witness: with library `"bogus"`, an empty run returns normally and a
run with one base name and one valid target fails with the library error. -/
theorem c1_witness :
    string_matching [] [] "bogus" "exact" 80 defaultKeep true = .ok ([], []) ∧
    string_matching ["x".toList] ["y".toList] "bogus" "exact" 80 defaultKeep true =
      .error (configError "bogus" "exact") :=
  ⟨(c1_invalid_configuration "bogus" "exact" (by decide) [] [] 80 defaultKeep true).1
      (Or.inl rfl),
    (c1_invalid_configuration "bogus" "exact" (by decide) ["x".toList] ["y".toList] 80
      defaultKeep true).2 (by decide) (by decide)⟩

/-- C2: every run of `string_matching` that returns partitions `base_list`
exactly — the output lengths sum to the length of `base_list`, and every
element of `base_list` appears among the matched record names or among the
unmatched names but never both and never neither. -/
theorem c2_partition_exact (library match_method : String) (bl tl : List PyStr)
    (th : ℚ) (pat : Char → Bool) (fm : Bool) (ms : List MatchRecord) (us : List PyStr)
    (h : string_matching bl tl library match_method th pat fm = .ok (ms, us)) :
    ms.length + us.length = bl.length ∧
    ∀ b ∈ bl, (b ∈ ms.map MatchRecord.name ∧ b ∉ us) ∨
      (b ∉ ms.map MatchRecord.name ∧ b ∈ us) := by
  rcases string_matching_ok_eq library match_method th pat fm bl tl ms us h with ⟨hms, hus⟩
  have hnames : ms.map MatchRecord.name =
      bl.filter (baseOutcomeAccepted library match_method th pat fm tl) := by
    rw [hms, List.map_map]
    have hcomp : (MatchRecord.name ∘ fun b =>
        MatchRecord.mk b (baseOutcomeName library match_method th pat fm tl b)) = id := by
      funext x
      rfl
    rw [hcomp, List.map_id]
  constructor
  · have hlen : ms.length =
        (bl.filter (baseOutcomeAccepted library match_method th pat fm tl)).length := by
      rw [hms, List.length_map]
    rw [hlen, hus]
    exact length_filter_add_length_filter_not
      (baseOutcomeAccepted library match_method th pat fm tl) bl
  · intro b hb
    by_cases hacc : baseOutcomeAccepted library match_method th pat fm tl b = true
    · left
      constructor
      · rw [hnames]
        exact List.mem_filter.mpr ⟨hb, hacc⟩
      · rw [hus]
        intro hmem
        have hneg := (List.mem_filter.mp hmem).2
        rw [hacc] at hneg
        cases hneg
    · have hacc' : baseOutcomeAccepted library match_method th pat fm tl b = false :=
        Bool.eq_false_iff.mpr hacc
      right
      constructor
      · rw [hnames]
        intro hmem
        exact hacc (List.mem_filter.mp hmem).2
      · rw [hus]
        exact List.mem_filter.mpr ⟨hb, by rw [hacc']; rfl⟩

/-- C2 witness: the partition equation on a concrete matched run. -/
theorem c2_witness :
    ([MatchRecord.mk "ba".toList "b".toList] : List MatchRecord).length +
      ([] : List PyStr).length = [("ba".toList : PyStr)].length :=
  (c2_partition_exact "rapidfuzz" "partial" ["ba".toList] ["b".toList, "a".toList] 100
    defaultKeep true [MatchRecord.mk "ba".toList "b".toList] [] rfl).1

/-- C3: the running-best update uses a strict comparison, so whenever a base
name is matched, its matched name is the first considered target attaining
the maximal score; in particular with `target_list = ["b", "a"]` and a base
name against which both targets score `100` (base `"ba"` in partial mode),
the matched name is `"b"`. -/
theorem c3_strict_tie_break :
    (∀ (library match_method : String), library ∈ valid_libraries →
      match_method ∈ valid_methods →
      ∀ (bl tl : List PyStr) (th : ℚ) (pat : Char → Bool) (fm : Bool)
        (ms : List MatchRecord) (us : List PyStr) (r : MatchRecord),
        string_matching bl tl library match_method th pat fm = .ok (ms, us) →
        r ∈ ms →
        firstMaxTarget
          (targetScore library match_method pat fm (normalize_string r.name pat))
          (maxScoreList
            (targetScore library match_method pat fm (normalize_string r.name pat))
            (consideredTargets fm tl))
          (consideredTargets fm tl) = some r.matched_name) ∧
    string_matching ["ba".toList] ["b".toList, "a".toList] "rapidfuzz" "partial" 100
        defaultKeep true = .ok ([MatchRecord.mk "ba".toList "b".toList], []) ∧
    targetScore "rapidfuzz" "partial" defaultKeep true
        (normalize_string "ba".toList defaultKeep) "b".toList = 100 ∧
    targetScore "rapidfuzz" "partial" defaultKeep true
        (normalize_string "ba".toList defaultKeep) "a".toList = 100 := by
  refine ⟨?_, rfl, by decide, by decide⟩
  intro library match_method hl hm bl tl th pat fm ms us r h hr
  rcases mem_matches_valid library match_method hl hm bl tl th pat fm ms us h r hr with
    ⟨_, hbb, _⟩
  exact (bestPure_some th _ _ _ hbb).2.2.2.2

/-- C3 witness: the tie-break conclusion extracted from the concrete run. -/
theorem c3_witness :
    firstMaxTarget
      (targetScore "rapidfuzz" "partial" defaultKeep true
        (normalize_string "ba".toList defaultKeep))
      (maxScoreList
        (targetScore "rapidfuzz" "partial" defaultKeep true
          (normalize_string "ba".toList defaultKeep))
        (consideredTargets true ["b".toList, "a".toList]))
      (consideredTargets true ["b".toList, "a".toList]) = some "b".toList :=
  c3_strict_tie_break.1 "rapidfuzz" "partial" (by decide) (by decide)
    ["ba".toList] ["b".toList, "a".toList] 100 defaultKeep true
    [MatchRecord.mk "ba".toList "b".toList] [] (MatchRecord.mk "ba".toList "b".toList)
    rfl (List.mem_singleton.mpr rfl)

/-- C4: the threshold comparison is inclusive — a pair whose score is a new
strict maximum and exactly equals the threshold is accepted as the running
best match; a matched pair never scores below the threshold; and a pair
scoring strictly below the threshold never changes the running best match. -/
theorem c4_threshold_inclusive :
    (∀ (library match_method : String), library ∈ valid_libraries →
      match_method ∈ valid_methods →
      ∀ (bl tl : List PyStr) (th : ℚ) (pat : Char → Bool) (fm : Bool)
        (ms : List MatchRecord) (us : List PyStr) (r : MatchRecord),
        string_matching bl tl library match_method th pat fm = .ok (ms, us) → r ∈ ms →
        th ≤ targetScore library match_method pat fm (normalize_string r.name pat)
          r.matched_name) ∧
    (∀ (library match_method : String), library ∈ valid_libraries →
      match_method ∈ valid_methods →
      ∀ (th : ℚ) (pat : Char → Bool) (fm : Bool) (nb : PyStr)
        (st : ℚ × Option PyStr) (t : PyStr),
        (fm && !(is_valid_filename t "windows")) = false →
        targetScore library match_method pat fm nb t = th →
        st.1 < th →
        processTarget library match_method th pat fm nb st t = .ok (th, some t)) ∧
    (∀ (library match_method : String), library ∈ valid_libraries →
      match_method ∈ valid_methods →
      ∀ (th : ℚ) (pat : Char → Bool) (fm : Bool) (nb : PyStr)
        (st : ℚ × Option PyStr) (t : PyStr),
        targetScore library match_method pat fm nb t < th →
        ∃ hs1, processTarget library match_method th pat fm nb st t = .ok (hs1, st.2)) := by
  refine ⟨?_, ?_, ?_⟩
  · intro library match_method hl hm bl tl th pat fm ms us r h hr
    rcases mem_matches_valid library match_method hl hm bl tl th pat fm ms us h r hr with
      ⟨_, hbb, _⟩
    have hfacts := bestPure_some th _ _ _ hbb
    rw [hfacts.1]
    exact hfacts.2.2.1
  · intro library match_method hl hm th pat fm nb st t hsk heq hlt
    rw [processTarget_valid_eq library match_method hl hm th pat fm nb st t hsk]
    unfold stepBest
    rw [heq, if_pos hlt, if_pos (le_refl th)]
  · intro library match_method hl hm th pat fm nb st t hlt
    by_cases hsk : (fm && !(is_valid_filename t "windows")) = true
    · exact ⟨st.1, by
        rw [processTarget_skip library match_method th pat fm nb st t hsk]⟩
    · have hsk' : (fm && !(is_valid_filename t "windows")) = false :=
        Bool.eq_false_iff.mpr hsk
      rw [processTarget_valid_eq library match_method hl hm th pat fm nb st t hsk']
      unfold stepBest
      by_cases hc : st.1 < targetScore library match_method pat fm nb t
      · rw [if_pos hc, if_neg (not_le.mpr hlt)]
        exact ⟨targetScore library match_method pat fm nb t, rfl⟩
      · rw [if_neg hc]
        exact ⟨st.1, rfl⟩

/-- C4 witness: a pair scoring exactly the threshold `100` from a fresh
state is accepted as the best match. -/
theorem c4_witness :
    processTarget "rapidfuzz" "exact" 100 defaultKeep false "ab".toList
      ((0 : ℚ), none) "ab".toList = .ok (100, some "ab".toList) :=
  c4_threshold_inclusive.2.1 "rapidfuzz" "exact" (by decide) (by decide) 100 defaultKeep
    false "ab".toList ((0 : ℚ), none) "ab".toList (by decide) (by decide) (by decide)

/-- C8: every matched name of a valid run is drawn verbatim from the
original target list. -/
theorem c8_matched_name_verbatim (library match_method : String)
    (hl : library ∈ valid_libraries) (hm : match_method ∈ valid_methods)
    (bl tl : List PyStr) (th : ℚ) (pat : Char → Bool) (fm : Bool)
    (ms : List MatchRecord) (us : List PyStr)
    (h : string_matching bl tl library match_method th pat fm = .ok (ms, us))
    (r : MatchRecord) (hr : r ∈ ms) :
    r.matched_name ∈ tl := by
  rcases mem_matches_valid library match_method hl hm bl tl th pat fm ms us h r hr with
    ⟨_, hbb, _⟩
  exact consideredTargets_subset fm tl _ (bestPure_some th _ _ _ hbb).2.2.2.1

/-- C8 witness: a run whose matched name `"AB.txt"` is the original target,
not its normalized or extension-stripped form. -/
theorem c8_witness :
    (MatchRecord.mk "ab".toList "AB.txt".toList).matched_name ∈
      [("AB.txt".toList : PyStr)] :=
  c8_matched_name_verbatim "rapidfuzz" "exact" (by decide) (by decide)
    ["ab".toList] ["AB.txt".toList] 80 defaultKeep true
    [MatchRecord.mk "ab".toList "AB.txt".toList] [] rfl
    (MatchRecord.mk "ab".toList "AB.txt".toList) (List.mem_singleton.mpr rfl)

/-- C9 counterexample: under the difflib backend, Partial mode on
`a = "ab"`, `b = "ba"` returns `quick_ratio * 100 = 100`, while the best
similarity of `a` against any contiguous substring of `b` of length
`len(a)` (under the backend's own full-ratio similarity) is `50`. -/
theorem c9_counterexample :
    get_score "difflib" "partial" "ab".toList "ba".toList = .ok 100 ∧
    bestWindowScore (fun x y => 100 * ratio_sm x y) "ab".toList "ba".toList = 50 ∧
    ((100 : ℚ) ≠ 50) := by
  refine ⟨rfl, by decide, by norm_num⟩

/-- C9 (amended): in Partial mode the rapidfuzz backend returns the best
substring alignment score `bestWindowScore ratio_rf` and the thefuzz backend
its integer rounding, while the difflib backend instead returns
`100 * quick_ratio`, the character-multiset measure; all three results lie
in `[0, 100]`. -/
theorem c9_partial_mode_amended (a b : PyStr) :
    get_score "rapidfuzz" "partial" a b = .ok (bestWindowScore ratio_rf a b) ∧
    get_score "thefuzz" "partial" a b =
      .ok (((round (bestWindowScore ratio_rf a b) : ℤ) : ℚ)) ∧
    get_score "difflib" "partial" a b = .ok (100 * quick_ratio_sm a b) ∧
    (0 ≤ partial_ratio_rf a b ∧ partial_ratio_rf a b ≤ 100) ∧
    (0 ≤ partial_ratio_tf a b ∧ partial_ratio_tf a b ≤ 100) ∧
    (0 ≤ 100 * quick_ratio_sm a b ∧ 100 * quick_ratio_sm a b ≤ 100) := by
  have hrange := bestWindowScore_range ratio_rf ratio_rf_range a b
  have hround := round_range (bestWindowScore ratio_rf a b) hrange.1 hrange.2
  refine ⟨rfl, rfl, rfl, hrange, ⟨?_, ?_⟩, quick_ratio_sm_range a b⟩
  · show (0 : ℚ) ≤ ((round (bestWindowScore ratio_rf a b) : ℤ) : ℚ)
    exact_mod_cast hround.1
  · show ((round (bestWindowScore ratio_rf a b) : ℤ) : ℚ) ≤ 100
    exact_mod_cast hround.2

/-- C10 counterexample: with base name `""` and target list `[""]` under
rapidfuzz exact scoring and threshold `50`, the (sole, considered) target
scores `100`, which is positive and clears the threshold, yet the base name
is reported unmatched: Python's `if best_match:` is falsy on the
empty-string best match. -/
theorem c10_counterexample :
    string_matching [[]] [[]] "rapidfuzz" "exact" 50 defaultKeep true = .ok ([], [[]]) ∧
    consideredTargets true [([] : PyStr)] = [([] : PyStr)] ∧
    maxScoreList
      (targetScore "rapidfuzz" "exact" defaultKeep true (normalize_string [] defaultKeep))
      (consideredTargets true [([] : PyStr)]) = 100 ∧
    ((0 : ℚ) < 100 ∧ (50 : ℚ) ≤ 100) := by
  refine ⟨rfl, rfl, by decide, by norm_num⟩

/-- C10 (amended): for a valid configuration, `string_matching` returns the
exact partition in which a base name is matched if and only if the maximal
score of the considered targets is positive, at least the threshold, and the
first target attaining it is not the empty string (an empty-string best
match is dropped by Python truthiness); when matched, the matched name is
that first maximal target. -/
theorem c10_matched_iff_amended (library match_method : String)
    (hl : library ∈ valid_libraries) (hm : match_method ∈ valid_methods)
    (bl tl : List PyStr) (th : ℚ) (pat : Char → Bool) (fm : Bool) :
    string_matching bl tl library match_method th pat fm =
      .ok ((bl.filter (baseAccepted library match_method th pat fm tl)).map
            (fun b => MatchRecord.mk b
              ((baseBest library match_method th pat fm tl b).getD [])),
          bl.filter (fun b => !(baseAccepted library match_method th pat fm tl b))) ∧
    ∀ b : PyStr,
      baseAccepted library match_method th pat fm tl b = true ↔
        (0 < maxScoreList
            (targetScore library match_method pat fm (normalize_string b pat))
            (consideredTargets fm tl) ∧
         th ≤ maxScoreList
            (targetScore library match_method pat fm (normalize_string b pat))
            (consideredTargets fm tl) ∧
         firstMaxTarget
            (targetScore library match_method pat fm (normalize_string b pat))
            (maxScoreList
              (targetScore library match_method pat fm (normalize_string b pat))
              (consideredTargets fm tl))
            (consideredTargets fm tl) ≠ some []) := by
  refine ⟨string_matching_valid_eq library match_method hl hm bl tl th pat fm, ?_⟩
  intro b
  constructor
  · intro hacc
    rcases baseAccepted_eq_true library match_method th pat fm tl b hacc with ⟨t, hbb, ht⟩
    have hfacts := bestPure_some th _ _ _ hbb
    refine ⟨hfacts.2.1, hfacts.2.2.1, ?_⟩
    rw [hfacts.2.2.2.2]
    intro hcon
    injection hcon with hcon'
    exact ht hcon'
  · rintro ⟨hpos, hth, hne⟩
    rcases firstMaxTarget_isSome
        (targetScore library match_method pat fm (normalize_string b pat))
        (maxScoreList
          (targetScore library match_method pat fm (normalize_string b pat))
          (consideredTargets fm tl))
        (consideredTargets fm tl)
        (maxScoreList_attained _ _ hpos) with ⟨t, hft⟩
    have hbb : baseBest library match_method th pat fm tl b = some t := by
      unfold baseBest
      rw [bestPure_def, if_pos ⟨hpos, hth⟩]
      exact hft
    have htne : t ≠ [] := by
      intro hteq
      rw [hteq] at hft
      exact hne hft
    unfold baseAccepted
    rw [hbb]
    simpa using htne

/-- C10 witness: the amended characterization applied to a concrete run. -/
theorem c10_witness :
    string_matching ["ba".toList] ["b".toList, "a".toList] "rapidfuzz" "partial" 100
        defaultKeep true =
      .ok (((["ba".toList] : List PyStr).filter
              (baseAccepted "rapidfuzz" "partial" 100 defaultKeep true
                ["b".toList, "a".toList])).map
            (fun b => MatchRecord.mk b
              ((baseBest "rapidfuzz" "partial" 100 defaultKeep true
                ["b".toList, "a".toList] b).getD [])),
          (["ba".toList] : List PyStr).filter
            (fun b => !(baseAccepted "rapidfuzz" "partial" 100 defaultKeep true
              ["b".toList, "a".toList] b))) :=
  (c10_matched_iff_amended "rapidfuzz" "partial" (by decide) (by decide)
    ["ba".toList] ["b".toList, "a".toList] 100 defaultKeep true).1

end CarmacTools
